import Mathlib

/-!
Verification of the BenchmarkingTutorial repository (src/main.cxx) against its
specification. The benchmark bodies live in src/main.cxx; the harness
components (timing session, iteration controller, parameter generator,
thread coordinator, complexity fitter) are the benchmark library the file
links against, so those components are modelled from the spec.
-/

namespace Bench

/-! ## Timing Session (spec §4.3)

Modelled from the spec: the TimingSession pause/resume state machine with
states Running and Paused is part of the benchmark harness, not of
src/main.cxx (which only calls `state.PauseTiming()` / `state.ResumeTiming()`).
-/

/-- The two states of a timing session. -/
inductive SessStatus where
  | running
  | paused
deriving DecidableEq, Repr

/-- Usage errors raised by the timing-session state machine. -/
inductive UsageError where
  | pauseWhilePaused
  | resumeWhileRunning
  | endWhilePaused
deriving DecidableEq, Repr

/-- Modelled from the spec: per-run timing-session state.  `startTime` is the
wall time at session start, `pausedTotal` the accumulated duration of all
completed paused intervals, `pauseStart` the wall time of the pause currently
in effect (meaningful only in the `paused` state). Times are integers. -/
structure TimingSession where
  startTime : ℤ
  pausedTotal : ℤ
  pauseStart : ℤ
  status : SessStatus
deriving DecidableEq, Repr

/-- Modelled from the spec: create a session at wall time `t`, in the
`Running` state with no paused time accumulated. -/
def TimingSession.start (t : ℤ) : TimingSession :=
  { startTime := t, pausedTotal := 0, pauseStart := 0, status := .running }

/-- Modelled from the spec: `pause()` is valid only in `Running`; it freezes
accumulation and transitions to `Paused`.  Calling while already `Paused`
fails with a `UsageError`. -/
def TimingSession.pause (s : TimingSession) (t : ℤ) :
    Except UsageError TimingSession :=
  match s.status with
  | .running => .ok { s with status := .paused, pauseStart := t }
  | .paused => .error .pauseWhilePaused

/-- Modelled from the spec: `resume()` is valid only in `Paused`; it adds the
just-finished paused interval to the accumulator and transitions to
`Running`.  Calling while already `Running` fails with a `UsageError`. -/
def TimingSession.resume (s : TimingSession) (t : ℤ) :
    Except UsageError TimingSession :=
  match s.status with
  | .paused =>
      .ok { s with status := .running,
                   pausedTotal := s.pausedTotal + (t - s.pauseStart) }
  | .running => .error .resumeWhileRunning

/-- Modelled from the spec: elapsed time reported at session end =
(time at end − time at start) − sum of all paused intervals.  A session that
ends while still `Paused` is a `UsageError`. -/
def TimingSession.finish (s : TimingSession) (t : ℤ) : Except UsageError ℤ :=
  match s.status with
  | .running => .ok (t - s.startTime - s.pausedTotal)
  | .paused => .error .endWhilePaused

/-- Run a balanced sequence of pause/resume calls: for each pair `(p, r)` the
session is paused at wall time `p` and resumed at wall time `r`. -/
def TimingSession.runPairs (s : TimingSession) :
    List (ℤ × ℤ) → Except UsageError TimingSession
  | [] => .ok s
  | (p, r) :: rest =>
    match s.pause p with
    | .error e => .error e
    | .ok s₁ =>
      match s₁.resume r with
      | .error e => .error e
      | .ok s₂ => s₂.runPairs rest

/-- Total duration of the paused intervals described by a pause/resume
pair list. -/
def pausedSum (l : List (ℤ × ℤ)) : ℤ :=
  (l.map fun pr => pr.2 - pr.1).sum

theorem runPairs_running (l : List (ℤ × ℤ)) :
    ∀ s : TimingSession, s.status = .running →
      ∃ s', s.runPairs l = .ok s' ∧ s'.status = .running ∧
        s'.startTime = s.startTime ∧
        s'.pausedTotal = s.pausedTotal + pausedSum l := by
  induction l with
  | nil =>
    intro s hs
    exact ⟨s, rfl, hs, rfl, by simp [pausedSum]⟩
  | cons pr rest ih =>
    intro s hs
    obtain ⟨p, r⟩ := pr
    obtain ⟨s', h1, h2, h3, h4⟩ :=
      ih { startTime := s.startTime, pausedTotal := s.pausedTotal + (r - p),
           pauseStart := p, status := .running } rfl
    refine ⟨s', ?_, h2, by rw [h3], ?_⟩
    · simp only [TimingSession.runPairs, TimingSession.pause,
        TimingSession.resume, hs]
      exact h1
    · rw [h4]
      simp [pausedSum]
      ring

/-- C1: for every timing session and every balanced sequence of pause/resume
calls, the elapsed time reported at session end equals the wall time at
session end minus the wall time at session start minus the total duration of
all paused intervals. -/
theorem session_elapsed_excludes_pauses (t₀ tEnd : ℤ) (l : List (ℤ × ℤ)) :
    ((TimingSession.start t₀).runPairs l).bind (·.finish tEnd) =
      .ok (tEnd - t₀ - pausedSum l) := by
  obtain ⟨s', h1, h2, h3, h4⟩ :=
    runPairs_running l (TimingSession.start t₀) rfl
  rw [h1]
  simp only [Except.bind, TimingSession.finish, h2]
  rw [h3, h4]
  simp [TimingSession.start]

/-- C2: `pause()` on an already-`Paused` session fails with a `UsageError`,
`resume()` on a `Running` session fails with a `UsageError`, and in the other
cases `pause()` transitions `Running` to `Paused` and `resume()` transitions
`Paused` to `Running`. -/
theorem pause_resume_state_machine (s : TimingSession) (t : ℤ) :
    (s.status = .paused → s.pause t = .error .pauseWhilePaused) ∧
    (s.status = .running → s.resume t = .error .resumeWhileRunning) ∧
    (s.status = .running →
      s.pause t = .ok { s with status := .paused, pauseStart := t }) ∧
    (s.status = .paused →
      s.resume t =
        .ok { s with status := .running,
                     pausedTotal := s.pausedTotal + (t - s.pauseStart) }) := by
  refine ⟨?_, ?_, ?_, ?_⟩ <;>
    intro hs <;>
    simp [TimingSession.pause, TimingSession.resume, hs]

/-- Witness for C2 at a concrete session and time. -/
theorem pause_resume_state_machine_witness :
    (TimingSession.start 5).resume 7 = .error .resumeWhileRunning :=
  (pause_resume_state_machine (TimingSession.start 5) 7).2.1 rfl

/-! ## Iteration Controller (spec §4.2)

Modelled from the spec: the iteration-count calibration loop is part of the
benchmark harness, not of src/main.cxx (which only configures it through
`MinTime(10)`).  Durations are naturals; `cost n` is the elapsed time of
running the body `n` times. -/

/-- Result of a calibration run: the final iteration count, the elapsed time
measured at that count, and the non-fatal warning flag. -/
structure CalibResult where
  iterations : ℕ
  elapsed : ℕ
  calibrationWarning : Bool
deriving DecidableEq, Repr

/-- Modelled from the spec: the next iteration count after an unsuccessful
round, `N * max(2, T_min/elapsed)`, clamped to the cap.  (The inner `max 1 n`
only departs from the spec formula at `n = 0`, a count the controller never
uses: it starts at `N = 1` and counts never decrease; it makes termination
manifest.) -/
def nextIterations (tMin cap n elapsed : ℕ) : ℕ :=
  min cap (max 1 n * max 2 (tMin / elapsed))

theorem lt_nextIterations (tMin cap n e : ℕ) (h : n < cap) :
    n < nextIterations tMin cap n e := by
  have h4 : max 1 n * 2 ≤ max 1 n * max 2 (tMin / e) :=
    Nat.mul_le_mul le_rfl (le_max_left _ _)
  unfold nextIterations
  omega

/-- Modelled from the spec: the calibration loop starting from iteration
count `n`.  If the measured elapsed time reaches `tMin`, stop with no
warning; otherwise, if the cap is reached, stop with a `CalibrationWarning`;
otherwise grow the count and recalibrate. -/
def calibrateFrom (tMin cap : ℕ) (cost : ℕ → ℕ) (n : ℕ) : CalibResult :=
  if tMin ≤ cost n then ⟨n, cost n, false⟩
  else if cap ≤ n then ⟨n, cost n, true⟩
  else calibrateFrom tMin cap cost (nextIterations tMin cap n (cost n))
termination_by cap - n
decreasing_by
  have := lt_nextIterations tMin cap n (cost n) (by omega)
  omega

/-- Modelled from the spec: calibration starts at `N = 1`. -/
def calibrate (tMin cap : ℕ) (cost : ℕ → ℕ) : CalibResult :=
  calibrateFrom tMin cap cost 1

theorem calibrateFrom_spec (tMin cap : ℕ) (cost : ℕ → ℕ) (n : ℕ) :
    (tMin ≤ (calibrateFrom tMin cap cost n).elapsed ∧
      (calibrateFrom tMin cap cost n).calibrationWarning = false) ∨
    (cap ≤ (calibrateFrom tMin cap cost n).iterations ∧
      (calibrateFrom tMin cap cost n).calibrationWarning = true) := by
  induction n using calibrateFrom.induct tMin cap cost with
  | case1 n h =>
    rw [calibrateFrom]
    simp [h]
  | case2 n h1 h2 =>
    rw [calibrateFrom]
    simp [h1, h2]
  | case3 n h1 h2 ih =>
    rw [calibrateFrom]
    simp only [h1, h2, if_false]
    exact ih

/-- C3: a completed calibration yields measured elapsed time ≥ the configured
minimum duration, unless the iteration cap was reached first, in which case
the non-fatal CalibrationWarning flag is set on the result (the calibration
function is total, so it never loops indefinitely). -/
theorem calibration_reaches_min_time_or_warns (tMin cap : ℕ) (cost : ℕ → ℕ) :
    (tMin ≤ (calibrate tMin cap cost).elapsed ∧
      (calibrate tMin cap cost).calibrationWarning = false) ∨
    (cap ≤ (calibrate tMin cap cost).iterations ∧
      (calibrate tMin cap cost).calibrationWarning = true) :=
  calibrateFrom_spec tMin cap cost 1

/-- The iteration counts chosen in successive calibration rounds, starting
from count `n`. -/
def calibRoundsFrom (tMin cap : ℕ) (cost : ℕ → ℕ) (n : ℕ) : List ℕ :=
  if tMin ≤ cost n then [n]
  else if cap ≤ n then [n]
  else n :: calibRoundsFrom tMin cap cost (nextIterations tMin cap n (cost n))
termination_by cap - n
decreasing_by
  have := lt_nextIterations tMin cap n (cost n) (by omega)
  omega

/-- The iteration counts chosen in successive calibration rounds of a
calibration run (which starts at `N = 1`). -/
def calibRounds (tMin cap : ℕ) (cost : ℕ → ℕ) : List ℕ :=
  calibRoundsFrom tMin cap cost 1

theorem calibRoundsFrom_head (tMin cap : ℕ) (cost : ℕ → ℕ) (n : ℕ) :
    (calibRoundsFrom tMin cap cost n).head? = some n := by
  rw [calibRoundsFrom]
  split
  · rfl
  split
  · rfl
  · rfl

theorem calibRoundsFrom_chain (tMin cap : ℕ) (cost : ℕ → ℕ) (n : ℕ) :
    List.Chain' (fun a b => a ≤ b ∧ b = nextIterations tMin cap a (cost a))
      (calibRoundsFrom tMin cap cost n) := by
  induction n using calibRoundsFrom.induct tMin cap cost with
  | case1 n h =>
    rw [calibRoundsFrom]
    simp [h]
  | case2 n h1 h2 =>
    rw [calibRoundsFrom]
    simp [h1, h2]
  | case3 n h1 h2 ih =>
    rw [calibRoundsFrom]
    simp only [h1, h2, if_false]
    refine List.chain'_cons'.mpr ⟨?_, ih⟩
    intro m hm
    rw [calibRoundsFrom_head] at hm
    cases hm
    exact ⟨le_of_lt (lt_nextIterations tMin cap n (cost n) (by omega)), rfl⟩

/-- C7: across successive calibration rounds the iteration count is
monotonically non-decreasing, and each recalibration sets the next count to
`N * max(2, T_min/elapsed)` clamped to the iteration cap. -/
theorem calibration_rounds_monotone (tMin cap : ℕ) (cost : ℕ → ℕ) :
    List.Chain' (fun a b => a ≤ b ∧ b = nextIterations tMin cap a (cost a))
      (calibRounds tMin cap cost) :=
  calibRoundsFrom_chain tMin cap cost 1

/-! ## Parameter Generator (spec §4.5)

Modelled from the spec: the geometric-range expansion is part of the
benchmark harness; src/main.cxx only configures it through
`RangeMultiplier(8)->Range(1l << 20, 1l << 32)`. -/

/-- Modelled from the spec: the geometric sequence starting at `v`, where
each next value is the previous value times the multiplier, truncated at
`hi`.  (The inner `max (v + 1) (v * mult)` only departs from `v * mult` when
`v = 0` or `mult ≤ 1`, configurations a range sweep never uses; it makes
termination manifest.) -/
def geomRangeFrom (hi mult : ℕ) (v : ℕ) : List ℕ :=
  if hi < v then []
  else v :: geomRangeFrom hi mult (max (v + 1) (v * mult))
termination_by hi + 1 - v
decreasing_by omega

/-- Modelled from the spec: the values generated for a geometric parameter
range `[lo, hi]` with a multiplier. -/
def geomRange (lo hi mult : ℕ) : List ℕ :=
  geomRangeFrom hi mult lo

theorem geomRangeFrom_head (hi mult v : ℕ) :
    geomRangeFrom hi mult v = [] ∨
      (geomRangeFrom hi mult v).head? = some v := by
  rw [geomRangeFrom]
  split
  · exact Or.inl rfl
  · exact Or.inr rfl

theorem geomRangeFrom_le (hi mult : ℕ) (v : ℕ) :
    ∀ x ∈ geomRangeFrom hi mult v, x ≤ hi := by
  induction v using geomRangeFrom.induct hi mult with
  | case1 v h =>
    rw [geomRangeFrom]
    simp [if_pos h]
  | case2 v h ih =>
    rw [geomRangeFrom]
    simp only [if_neg h, List.mem_cons]
    rintro x (rfl | hx)
    · omega
    · exact ih x hx

theorem geomRangeFrom_chain (hi mult : ℕ) (hm : 2 ≤ mult) (v : ℕ) :
    1 ≤ v →
      List.Chain' (fun a b => b = a * mult) (geomRangeFrom hi mult v) := by
  induction v using geomRangeFrom.induct hi mult with
  | case1 v h =>
    intro hv
    rw [geomRangeFrom]
    simp [if_pos h]
  | case2 v h ih =>
    intro hv
    rw [geomRangeFrom]
    simp only [if_neg h]
    have hmul : v * 2 ≤ v * mult := Nat.mul_le_mul le_rfl hm
    have hnext : max (v + 1) (v * mult) = v * mult := by omega
    refine List.chain'_cons'.mpr ⟨?_, ih (by omega)⟩
    intro b hb
    rcases geomRangeFrom_head hi mult (max (v + 1) (v * mult)) with he | hh
    · rw [he] at hb
      simp at hb
    · rw [hh] at hb
      simp only [Option.mem_def, Option.some.injEq] at hb
      omega

/-- C4: a geometric parameter range `[lo, hi]` with a multiplier generates
the sequence in which each next value equals the previous value times the
multiplier, includes the starting endpoint, and excludes values exceeding
`hi`; for `lo = 2^20`, `hi = 2^32`, `mult = 8` the generated sizes are
exactly `[2^20, 2^23, 2^26, 2^29, 2^32]` (both endpoints included). -/
theorem geomRange_spec (lo hi mult : ℕ) (h1 : 1 ≤ lo) (h2 : 2 ≤ mult)
    (h3 : lo ≤ hi) :
    lo ∈ geomRange lo hi mult ∧
    (∀ x ∈ geomRange lo hi mult, x ≤ hi) ∧
    List.Chain' (fun a b => b = a * mult) (geomRange lo hi mult) ∧
    geomRange (2 ^ 20) (2 ^ 32) 8 =
      [2 ^ 20, 2 ^ 23, 2 ^ 26, 2 ^ 29, 2 ^ 32] := by
  refine ⟨?_, geomRangeFrom_le hi mult lo, geomRangeFrom_chain hi mult h2 lo h1, ?_⟩
  · rw [geomRange, geomRangeFrom]
    simp [Nat.not_lt.mpr h3]
  · rw [geomRange]
    rw [geomRangeFrom]; norm_num
    rw [geomRangeFrom]; norm_num
    rw [geomRangeFrom]; norm_num
    rw [geomRangeFrom]; norm_num
    rw [geomRangeFrom]; norm_num
    rw [geomRangeFrom]; norm_num

/-- Witness for C4 at the configuration registered in src/main.cxx. -/
theorem geomRange_spec_witness :
    geomRange (2 ^ 20) (2 ^ 32) 8 =
      [2 ^ 20, 2 ^ 23, 2 ^ 26, 2 ^ 29, 2 ^ 32] :=
  (geomRange_spec (2 ^ 20) (2 ^ 32) 8 (by norm_num) (by norm_num)
    (by norm_num)).2.2.2

/-! ## Complexity Fitter (spec §4.7)

Modelled from the spec: the least-squares complexity fit is part of the
benchmark harness; src/main.cxx only declares the shape through
`Complexity(benchmark::oNLogN)`.  Times are exact rationals and `log2` is
the floor base-2 logarithm (exact on the power-of-two sizes the sweep
uses). -/

/-- Floor base-2 logarithm, fuel-based (the fuel argument only bounds the
recursion depth; `log2Aux n n` computes the floor log). -/
def log2Aux : ℕ → ℕ → ℕ
  | 0, _ => 0
  | fuel + 1, n => if n ≤ 1 then 0 else log2Aux fuel (n / 2) + 1

/-- Floor base-2 logarithm. -/
def log2 (n : ℕ) : ℕ := log2Aux n n

/-- Modelled from the spec: the candidate asymptotic shapes — constant,
log N, N, N log N, N², N³. -/
inductive Shape where
  | oOne
  | oLogN
  | oN
  | oNLogN
  | oNSquared
  | oNCubed
deriving DecidableEq, Repr

/-- Modelled from the spec: the cost function `f(N)` of each candidate
shape. -/
def Shape.eval : Shape → ℕ → ℚ
  | .oOne, _ => 1
  | .oLogN, n => (log2 n : ℚ)
  | .oN, n => (n : ℚ)
  | .oNLogN, n => (n : ℚ) * (log2 n : ℚ)
  | .oNSquared, n => (n : ℚ) ^ 2
  | .oNCubed, n => (n : ℚ) ^ 3

/-- `Σ t_i · f(N_i)` over the complexity points. -/
def sumTF (pts : List (ℕ × ℚ)) (s : Shape) : ℚ :=
  (pts.map fun p => p.2 * s.eval p.1).sum

/-- `Σ f(N_i)²` over the complexity points. -/
def sumFF (pts : List (ℕ × ℚ)) (s : Shape) : ℚ :=
  (pts.map fun p => s.eval p.1 ^ 2).sum

/-- `Σ t_i²` over the complexity points. -/
def sumTT (pts : List (ℕ × ℚ)) : ℚ :=
  (pts.map fun p => p.2 ^ 2).sum

/-- Modelled from the spec: the closed-form least-squares coefficient
`C* = Σ t_i f(N_i) / Σ f(N_i)²`. -/
def fitCoeff (pts : List (ℕ × ℚ)) (s : Shape) : ℚ :=
  sumTF pts s / sumFF pts s

/-- Sum of squared residuals `Σ (t_i − C·f(N_i))²` at coefficient `C`
(the RMSE is `√(this / n)`, so it vanishes exactly when this does and the
candidate ordering by RMSE is the ordering by this sum). -/
def ssrAt (pts : List (ℕ × ℚ)) (s : Shape) (c : ℚ) : ℚ :=
  (pts.map fun p => (p.2 - c * s.eval p.1) ^ 2).sum

/-- Residual sum of squares of a candidate shape at its fitted
coefficient. -/
def ssr (pts : List (ℕ × ℚ)) (s : Shape) : ℚ :=
  ssrAt pts s (fitCoeff pts s)

/-- The fixed candidate list of spec §4.7. -/
def candidates : List Shape :=
  [.oOne, .oLogN, .oN, .oNLogN, .oNSquared, .oNCubed]

/-- Modelled from the spec: with the shape undeclared, select the candidate
minimizing the residual error. -/
def selectShape (pts : List (ℕ × ℚ)) : Shape :=
  candidates.foldl (fun best s => if ssr pts s < ssr pts best then s else best)
    .oOne

/-- The synthetic samples `t_i = 3 · N_i · log2 N_i` for
`N_i ∈ {1024, 4096, 16384}`. -/
def fitPts : List (ℕ × ℚ) :=
  [(1024, 30720), (4096, 147456), (16384, 688128)]

theorem ssrAt_expand (pts : List (ℕ × ℚ)) (s : Shape) (c : ℚ) :
    ssrAt pts s c =
      sumTT pts - 2 * c * sumTF pts s + c ^ 2 * sumFF pts s := by
  induction pts with
  | nil => simp [ssrAt, sumTT, sumTF, sumFF]
  | cons p rest ih =>
    simp only [ssrAt, sumTT, sumTF, sumFF, List.map_cons, List.sum_cons]
      at ih ⊢
    rw [ih]
    ring

theorem sumFF_nonneg (pts : List (ℕ × ℚ)) (s : Shape) : 0 ≤ sumFF pts s := by
  induction pts with
  | nil => simp [sumFF]
  | cons p rest ih =>
    simp only [sumFF, List.map_cons, List.sum_cons] at ih ⊢
    have := sq_nonneg (s.eval p.1)
    linarith

theorem fitCoeff_minimizes_ssr (pts : List (ℕ × ℚ)) (s : Shape) (c : ℚ)
    (hA : sumFF pts s ≠ 0) :
    ssrAt pts s (fitCoeff pts s) ≤ ssrAt pts s c := by
  have hpos : 0 < sumFF pts s :=
    lt_of_le_of_ne (sumFF_nonneg pts s) (Ne.symm hA)
  have key : ssrAt pts s c - ssrAt pts s (fitCoeff pts s) =
      sumFF pts s * (c - fitCoeff pts s) ^ 2 := by
    rw [ssrAt_expand, ssrAt_expand, fitCoeff]
    field_simp
    ring
  have h2 : 0 ≤ sumFF pts s * (c - fitCoeff pts s) ^ 2 :=
    mul_nonneg hpos.le (sq_nonneg _)
  linarith

/-- C5: the closed-form coefficient `C* = Σ t_i f(N_i) / Σ f(N_i)²` is the
least-squares minimizer of `Σ (t_i − C·f(N_i))²`, and on the synthetic
samples `t_i = 3 · N_i · log2 N_i` for `N_i ∈ {1024, 4096, 16384}` the
fitter selects the "N log N" candidate with fitted coefficient exactly 3
(hence within 1% of 3.0) and residual sum of squares exactly 0 (hence
RMSE 0). -/
theorem complexity_fitter_spec (pts : List (ℕ × ℚ)) (s : Shape) (c : ℚ)
    (hA : sumFF pts s ≠ 0) :
    ssrAt pts s (fitCoeff pts s) ≤ ssrAt pts s c ∧
    selectShape fitPts = .oNLogN ∧
    fitCoeff fitPts .oNLogN = 3 ∧
    ssr fitPts .oNLogN = 0 := by
  refine ⟨fitCoeff_minimizes_ssr pts s c hA, ?_, ?_, ?_⟩
  · norm_num [selectShape, candidates, List.foldl, ssr, ssrAt, fitCoeff,
      sumTF, sumFF, fitPts, Shape.eval, show log2 1024 = 10 from rfl,
      show log2 4096 = 12 from rfl, show log2 16384 = 14 from rfl]
  · norm_num [fitCoeff, sumTF, sumFF, fitPts, Shape.eval,
      show log2 1024 = 10 from rfl, show log2 4096 = 12 from rfl,
      show log2 16384 = 14 from rfl]
  · norm_num [ssr, ssrAt, fitCoeff, sumTF, sumFF, fitPts, Shape.eval,
      show log2 1024 = 10 from rfl, show log2 4096 = 12 from rfl,
      show log2 16384 = 14 from rfl]

/-- Witness for C5 at the synthetic sample set, shape N log N and
coefficient 5. -/
theorem complexity_fitter_spec_witness :
    ssrAt fitPts .oNLogN (fitCoeff fitPts .oNLogN) ≤ ssrAt fitPts .oNLogN 5 ∧
    selectShape fitPts = .oNLogN ∧
    fitCoeff fitPts .oNLogN = 3 ∧
    ssr fitPts .oNLogN = 0 :=
  complexity_fitter_spec fitPts .oNLogN 5 (by
    norm_num [sumFF, fitPts, Shape.eval, show log2 1024 = 10 from rfl,
      show log2 4096 = 12 from rfl, show log2 16384 = 14 from rfl])

/-! ## The i64_division benchmark body (src/main.cxx, `i64_division`)

`int64_t a = std::rand(), b = std::rand(), c = 0;` then each timed iteration
runs `c = (++a) / (++b)`.  `std::rand()` returns a non-negative value.
Machine `int64_t` is modelled by `ℤ` (the values reached stay far below
`2^63`), with C++ truncated division `Int.tdiv`; division by zero is modelled
as the `none` branch. -/

/-- The local state `(a, b, c)` of the i64_division body. -/
structure DivState where
  a : ℤ
  b : ℤ
  c : ℤ
deriving DecidableEq, Repr

/-- One timed iteration of i64_division: `c = (++a) / (++b)`, with the
division-by-zero branch explicit. -/
def i64DivisionStep (s : DivState) : Option DivState :=
  if s.b + 1 = 0 then none
  else some ⟨s.a + 1, s.b + 1, Int.tdiv (s.a + 1) (s.b + 1)⟩

/-- `n` timed iterations of the i64_division body. -/
def i64DivisionRun (s : DivState) : ℕ → Option DivState
  | 0 => some s
  | n + 1 => (i64DivisionRun s n).bind i64DivisionStep

/-- The i64_division body state after initialization:
`a = std::rand()`, `b = std::rand()`, `c = 0`. -/
def i64DivisionInit (a₀ b₀ : ℤ) : DivState := ⟨a₀, b₀, 0⟩

/-- C8: with the divisor seed `b₀ = std::rand()` non-negative, every
iteration of the i64_division loop succeeds — the division-by-zero branch is
unreachable — and after `n` iterations the divisor equals `b₀ + n`, so the
divisor is at least 1 at every division performed. -/
theorem i64_division_divisor_positive (a₀ b₀ : ℤ) (n : ℕ) (hb : 0 ≤ b₀) :
    ∃ s, i64DivisionRun (i64DivisionInit a₀ b₀) n = some s ∧
      s.b = b₀ + n ∧ s.a = a₀ + n ∧ (1 ≤ n → 1 ≤ s.b) := by
  induction n with
  | zero => exact ⟨i64DivisionInit a₀ b₀, rfl, by simp [i64DivisionInit],
      by simp [i64DivisionInit], by omega⟩
  | succ n ih =>
    obtain ⟨s, hrun, hb', ha', _⟩ := ih
    refine ⟨⟨s.a + 1, s.b + 1, Int.tdiv (s.a + 1) (s.b + 1)⟩, ?_, ?_, ?_, ?_⟩
    · rw [i64DivisionRun, hrun]
      show i64DivisionStep s = _
      rw [i64DivisionStep, if_neg (by omega)]
    · show s.b + 1 = b₀ + ((n : ℤ) + 1)
      omega
    · show s.a + 1 = a₀ + ((n : ℤ) + 1)
      omega
    · intro _
      show (1 : ℤ) ≤ s.b + 1
      omega

/-- Witness for C8 with both seeds zero and three iterations. -/
theorem i64_division_divisor_positive_witness :
    ∃ s, i64DivisionRun (i64DivisionInit 0 0) 3 = some s ∧
      s.b = 0 + (3 : ℕ) ∧ s.a = 0 + (3 : ℕ) ∧ (1 ≤ 3 → 1 ≤ s.b) :=
  i64_division_divisor_positive 0 0 3 (by decide)

/-! ## Pause/resume traces of the benchmark bodies (src/main.cxx)

The timing calls each body issues per iteration, run against the
TimingSession state machine. -/

/-- A timing call made by a benchmark body, tagged with the wall time at
which it happens. -/
inductive SessionEv where
  | pauseAt (t : ℤ)
  | resumeAt (t : ℤ)
deriving DecidableEq, Repr

/-- Run a list of timing calls through a session. -/
def TimingSession.runEvents (s : TimingSession) :
    List SessionEv → Except UsageError TimingSession
  | [] => .ok s
  | .pauseAt t :: rest =>
    match s.pause t with
    | .error e => .error e
    | .ok s₁ => s₁.runEvents rest
  | .resumeAt t :: rest =>
    match s.resume t with
    | .error e => .error e
    | .ok s₁ => s₁.runEvents rest

/-- Timing calls of one iteration of the `sorting` body: the runtime flag
`include_preprocessing = state.range(1)` guards `state.PauseTiming()` before
the reverse and `state.ResumeTiming()` after it (two separate `if`s in the
source). -/
def sortingIterEvents (include_preprocessing : Bool) (tp tr : ℤ) :
    List SessionEv :=
  (if !include_preprocessing then [.pauseAt tp] else []) ++
    (if !include_preprocessing then [.resumeAt tr] else [])

/-- Timing calls of one iteration of the `sorting_template` body: identical
to `sorting`, with the flag `include_preprocessing_k` fixed at compile time
(`if constexpr`). -/
def sortingTemplateIterEvents (include_preprocessing_k : Bool) (tp tr : ℤ) :
    List SessionEv :=
  (if !include_preprocessing_k then [.pauseAt tp] else []) ++
    (if !include_preprocessing_k then [.resumeAt tr] else [])

/-- Timing calls of one iteration of the `upper_cost_of_pausing` body:
unconditionally `state.PauseTiming(); ++a; state.ResumeTiming()`. -/
def upperCostOfPausingIterEvents (tp tr : ℤ) : List SessionEv :=
  [.pauseAt tp, .resumeAt tr]

/-- The timing calls of `n` loop iterations of a body, the `i`-th iteration
pausing at `(ts i).1` and resuming at `(ts i).2`. -/
def iterTrace (f : ℤ → ℤ → List SessionEv) (ts : ℕ → ℤ × ℤ) (n : ℕ) :
    List SessionEv :=
  (List.range n).flatMap fun i => f (ts i).1 (ts i).2

theorem runEvents_append (l₁ l₂ : List SessionEv) :
    ∀ s : TimingSession,
      s.runEvents (l₁ ++ l₂) =
        match s.runEvents l₁ with
        | .error e => .error e
        | .ok s₁ => s₁.runEvents l₂ := by
  induction l₁ with
  | nil =>
    intro s
    rfl
  | cons ev rest ih =>
    intro s
    cases ev with
    | pauseAt t =>
      cases hp : s.pause t with
      | error e => simp only [TimingSession.runEvents, hp]
      | ok s₁ =>
        simp only [TimingSession.runEvents, hp]
        exact ih s₁
    | resumeAt t =>
      cases hp : s.resume t with
      | error e => simp only [TimingSession.runEvents, hp]
      | ok s₁ =>
        simp only [TimingSession.runEvents, hp]
        exact ih s₁

/-- A per-iteration list of timing calls keeps the session running and never
raises a usage error, whatever its pause/resume wall times. -/
def KeepsRunning (f : ℤ → ℤ → List SessionEv) : Prop :=
  ∀ (s : TimingSession) (tp tr : ℤ), s.status = .running →
    ∃ s₁, s.runEvents (f tp tr) = .ok s₁ ∧ s₁.status = .running ∧
      s₁.startTime = s.startTime

theorem keepsRunning_pauseResume (tp tr : ℤ) (s : TimingSession)
    (hs : s.status = .running) :
    ∃ s₁, s.runEvents [.pauseAt tp, .resumeAt tr] = .ok s₁ ∧
      s₁.status = .running ∧ s₁.startTime = s.startTime := by
  refine ⟨{ s with status := .running,
                   pauseStart := tp,
                   pausedTotal := s.pausedTotal + (tr - tp) }, ?_, rfl, rfl⟩
  simp only [TimingSession.runEvents, TimingSession.pause,
    TimingSession.resume, hs]

theorem keepsRunning_sorting (include_preprocessing : Bool) :
    KeepsRunning (sortingIterEvents include_preprocessing) := by
  intro s tp tr hs
  cases include_preprocessing with
  | false => exact keepsRunning_pauseResume tp tr s hs
  | true => exact ⟨s, rfl, hs, rfl⟩

theorem keepsRunning_sortingTemplate (include_preprocessing_k : Bool) :
    KeepsRunning (sortingTemplateIterEvents include_preprocessing_k) := by
  intro s tp tr hs
  cases include_preprocessing_k with
  | false => exact keepsRunning_pauseResume tp tr s hs
  | true => exact ⟨s, rfl, hs, rfl⟩

theorem keepsRunning_upperCostOfPausing :
    KeepsRunning (fun tp tr => upperCostOfPausingIterEvents tp tr) := by
  intro s tp tr hs
  exact keepsRunning_pauseResume tp tr s hs

theorem iterTrace_keepsRunning (f : ℤ → ℤ → List SessionEv)
    (hf : KeepsRunning f) (ts : ℕ → ℤ × ℤ) (n : ℕ) :
    ∀ s : TimingSession, s.status = .running →
      ∃ s₁, s.runEvents (iterTrace f ts n) = .ok s₁ ∧
        s₁.status = .running ∧ s₁.startTime = s.startTime := by
  induction n with
  | zero =>
    intro s hs
    exact ⟨s, rfl, hs, rfl⟩
  | succ n ih =>
    intro s hs
    obtain ⟨s₁, h1, h2, h2b⟩ := ih s hs
    obtain ⟨s₂, h3, h4, h4b⟩ := hf s₁ (ts n).1 (ts n).2 h2
    refine ⟨s₂, ?_, h4, by rw [h4b, h2b]⟩
    have h1b : s.runEvents
        ((List.range n).flatMap fun i => f (ts i).1 (ts i).2) =
          Except.ok s₁ := h1
    rw [iterTrace, List.range_succ, List.flatMap_append, runEvents_append, h1b]
    simpa using h3

/-- C9: each body that pauses timing (`sorting` with
`include_preprocessing = false`, `sorting_template<false>`, and
`upper_cost_of_pausing`) matches every pause with exactly one resume in the
same iteration, so for any flag value, any iteration count and any wall
times, the session is running at the end of every iteration and at session
end, and no pause/resume usage error is ever raised. -/
theorem bodies_never_misuse_session (flag flagT : Bool) (ts : ℕ → ℤ × ℤ)
    (n : ℕ) (t₀ tEnd : ℤ) :
    (∃ s₁, (TimingSession.start t₀).runEvents
        (iterTrace (sortingIterEvents flag) ts n) = .ok s₁ ∧
      s₁.status = .running ∧ s₁.finish tEnd = .ok (tEnd - t₀ - s₁.pausedTotal)) ∧
    (∃ s₁, (TimingSession.start t₀).runEvents
        (iterTrace (sortingTemplateIterEvents flagT) ts n) = .ok s₁ ∧
      s₁.status = .running ∧ s₁.finish tEnd = .ok (tEnd - t₀ - s₁.pausedTotal)) ∧
    (∃ s₁, (TimingSession.start t₀).runEvents
        (iterTrace upperCostOfPausingIterEvents ts n) = .ok s₁ ∧
      s₁.status = .running ∧ s₁.finish tEnd = .ok (tEnd - t₀ - s₁.pausedTotal)) := by
  refine ⟨?_, ?_, ?_⟩
  · obtain ⟨s₁, h1, h2, h2b⟩ := iterTrace_keepsRunning _
      (keepsRunning_sorting flag) ts n (TimingSession.start t₀) rfl
    refine ⟨s₁, h1, h2, ?_⟩
    simp [TimingSession.finish, h2, h2b, TimingSession.start]
  · obtain ⟨s₁, h1, h2, h2b⟩ := iterTrace_keepsRunning _
      (keepsRunning_sortingTemplate flagT) ts n (TimingSession.start t₀) rfl
    refine ⟨s₁, h1, h2, ?_⟩
    simp [TimingSession.finish, h2, h2b, TimingSession.start]
  · obtain ⟨s₁, h1, h2, h2b⟩ := iterTrace_keepsRunning _
      keepsRunning_upperCostOfPausing ts n (TimingSession.start t₀) rfl
    refine ⟨s₁, h1, h2, ?_⟩
    simp [TimingSession.finish, h2, h2b, TimingSession.start]

/-! ## Array behaviour of sorting vs sorting_template (src/main.cxx)

Both bodies build `std::vector<int32_t> array(count)` filled by `std::iota`
starting at 1, and each timed iteration runs `std::reverse` then
`std::sort`; the array is modelled as a list of integers (the values stay in
`1..count`, far below the `int32_t` range). -/

/-- `std::iota(array.begin(), array.end(), 1)`: the list `[1, …, count]`. -/
def iotaArray (count : ℕ) : List ℤ :=
  (List.range count).map fun i : ℕ => (i : ℤ) + 1

/-- One iteration of the `sorting` body on the array: `std::reverse` then
`std::sort`.  The runtime `include_preprocessing = state.range(1)` flag only
guards the timing calls, not the array operations. -/
def sortingIter (include_preprocessing : Bool) (arr : List ℤ) : List ℤ :=
  List.insertionSort (· ≤ ·) arr.reverse

/-- One iteration of the `sorting_template` body on the array:
`std::reverse` then `std::sort`.  The compile-time `include_preprocessing_k`
parameter only guards the timing calls. -/
def sortingTemplateIter (include_preprocessing_k : Bool) (arr : List ℤ) :
    List ℤ :=
  List.insertionSort (· ≤ ·) arr.reverse

/-- The array of the `sorting` body after `n` timed iterations. -/
def sortingRun (include_preprocessing : Bool) (count n : ℕ) : List ℤ :=
  (sortingIter include_preprocessing)^[n] (iotaArray count)

/-- The array of the `sorting_template` body after `n` timed iterations. -/
def sortingTemplateRun (include_preprocessing_k : Bool) (count n : ℕ) :
    List ℤ :=
  (sortingTemplateIter include_preprocessing_k)^[n] (iotaArray count)

theorem iotaArray_sorted (count : ℕ) :
    List.Sorted (· ≤ ·) (iotaArray count) := by
  unfold iotaArray
  have h2 : List.Pairwise (· ≤ ·)
      ((List.range count).map fun i : ℕ => (i : ℤ) + 1) :=
    (List.pairwise_lt_range count).map (fun i : ℕ => (i : ℤ) + 1)
      (fun a b hab => by
        have hab' : a < b := hab
        show (a : ℤ) + 1 ≤ (b : ℤ) + 1
        omega)
  exact h2

theorem sortingIter_of_sorted (flag : Bool) (l : List ℤ)
    (hl : List.Sorted (· ≤ ·) l) : sortingIter flag l = l := by
  unfold sortingIter
  refine List.eq_of_perm_of_sorted ?_ (List.sorted_insertionSort _ _) hl
  exact (List.perm_insertionSort _ _).trans l.reverse_perm

/-- C10: for equal element count and equal preprocessing flag, the `sorting`
body and the `sorting_template` body perform the same per-iteration array
operation — reverse, then sort — and after every iteration both leave the
array equal to the ascending sequence `1..count`; the two bodies' array
behaviour is identical for all flags and iteration counts. -/
theorem sorting_template_equivalence (flag : Bool) (count n : ℕ) :
    (∀ arr : List ℤ, sortingIter flag arr = sortingTemplateIter flag arr) ∧
    sortingRun flag count n = sortingTemplateRun flag count n ∧
    sortingRun flag count n = iotaArray count := by
  have hrun : sortingRun flag count n = iotaArray count := by
    induction n with
    | zero => rfl
    | succ n ih =>
      rw [sortingRun, Function.iterate_succ_apply']
      rw [sortingRun] at ih
      rw [ih]
      exact sortingIter_of_sorted flag _ (iotaArray_sorted count)
  exact ⟨fun arr => rfl, by rw [hrun]; exact hrun.symm.trans rfl, hrun⟩

/-! ## Thread Coordinator (spec §4.4)

Modelled from the spec: multi-threaded replication and aggregation are part
of the benchmark harness; src/main.cxx only configures them through
`Threads(8)` and `UseRealTime()`.  The coordinator is modelled by the
arrivals of worker threads at the end barrier: each arrival carries the
thread's sample and the coordinator wall time of the arrival, and the
aggregate is computed exactly when the last of the `threadCount` threads has
arrived. -/

/-- The per-thread measurement produced by one worker's own timing loop. -/
structure ThreadSample where
  cpuTime : ℚ
  items : ℕ
  bytes : ℕ
deriving DecidableEq, Repr

/-- The aggregate the coordinator computes after the end barrier. -/
structure Aggregate where
  cpuTime : ℚ
  realTime : ℚ
  items : ℕ
  bytes : ℕ
deriving DecidableEq, Repr

/-- Coordinator state: the configured thread count, the wall time at
start-barrier release, the samples of threads that have reached the end
barrier, and the aggregate (`none` until all threads have arrived). -/
structure CoordState where
  threadCount : ℕ
  startRelease : ℚ
  arrived : List ThreadSample
  aggregate : Option Aggregate
deriving DecidableEq, Repr

/-- Modelled from the spec: coordinator state at start-barrier release, wall
time `t₀`, with no thread yet at the end barrier. -/
def CoordState.init (tc : ℕ) (t₀ : ℚ) : CoordState :=
  { threadCount := tc, startRelease := t₀, arrived := [], aggregate := none }

/-- Modelled from the spec: a worker thread reaches the end barrier at
coordinator wall time `tNow` with its sample.  Only when the arrival
completes the barrier does the coordinator compute the aggregate: CPU time
and the counters are summed across threads, and the real time is the
coordinator's own span from start-barrier release to end-barrier
completion. -/
def CoordState.arrive (st : CoordState) (sample : ThreadSample) (tNow : ℚ) :
    CoordState :=
  let arrived := sample :: st.arrived
  if arrived.length = st.threadCount then
    { st with arrived := arrived,
              aggregate := some
                { cpuTime := (arrived.map ThreadSample.cpuTime).sum,
                  realTime := tNow - st.startRelease,
                  items := (arrived.map ThreadSample.items).sum,
                  bytes := (arrived.map ThreadSample.bytes).sum } }
  else
    { st with arrived := arrived }

/-- Run the coordinator over a sequence of end-barrier arrivals. -/
def runCoordinator (tc : ℕ) (t₀ : ℚ) (arrivals : List (ThreadSample × ℚ)) :
    CoordState :=
  arrivals.foldl (fun st p => st.arrive p.1 p.2) (CoordState.init tc t₀)

/-- Modelled from the spec: the time the harness reports — the coordinator's
wall-clock span when real-time mode is requested, the summed CPU time
otherwise. -/
def reportedTime (useRealTime : Bool) (agg : Aggregate) : ℚ :=
  if useRealTime then agg.realTime else agg.cpuTime

theorem runCoordinator_before_barrier (t₀ : ℚ) (tc : ℕ) :
    ∀ pre : List (ThreadSample × ℚ), pre.length < tc →
      runCoordinator tc t₀ pre =
        { threadCount := tc, startRelease := t₀,
          arrived := (pre.map Prod.fst).reverse, aggregate := none } := by
  intro pre
  induction pre using List.reverseRecOn with
  | nil =>
    intro _
    simp [runCoordinator, CoordState.init]
  | append_singleton pre p ih =>
    intro hlen
    rw [List.length_append, List.length_singleton] at hlen
    rw [runCoordinator, List.foldl_append]
    rw [show List.foldl (fun st q => st.arrive q.1 q.2) (CoordState.init tc t₀)
          pre = runCoordinator tc t₀ pre from rfl]
    rw [ih (by omega)]
    simp only [List.foldl_cons, List.foldl_nil, CoordState.arrive]
    rw [if_neg (by simp; omega)]
    simp

/-- C6: once all worker threads have reached the end barrier — the last one
at wall time `tEnd` — the coordinator's aggregate CPU time is the sum of the
per-thread CPU times, the aggregate real time is the coordinator's own span
from start-barrier release (`t₀`) to end-barrier completion (`tEnd`) and is
what real-time mode reports, and the items/bytes counters are the sums
across threads; while any thread is still missing, no aggregate exists, so
counters are only merged after the end barrier. -/
theorem coordinator_aggregate_spec (t₀ tEnd : ℚ)
    (earlier : List (ThreadSample × ℚ)) (sLast : ThreadSample)
    (pre : List (ThreadSample × ℚ))
    (hpre : pre.length < (earlier ++ [(sLast, tEnd)]).length) :
    (runCoordinator (earlier ++ [(sLast, tEnd)]).length t₀
        (earlier ++ [(sLast, tEnd)])).aggregate =
      some
        { cpuTime :=
            ((earlier ++ [(sLast, tEnd)]).map fun p => p.1.cpuTime).sum,
          realTime := tEnd - t₀,
          items := ((earlier ++ [(sLast, tEnd)]).map fun p => p.1.items).sum,
          bytes :=
            ((earlier ++ [(sLast, tEnd)]).map fun p => p.1.bytes).sum } ∧
    (runCoordinator (earlier ++ [(sLast, tEnd)]).length t₀ pre).aggregate =
      none ∧
    (runCoordinator (earlier ++ [(sLast, tEnd)]).length t₀
        (earlier ++ [(sLast, tEnd)])).aggregate.map (reportedTime true) =
      some (tEnd - t₀) ∧
    (runCoordinator (earlier ++ [(sLast, tEnd)]).length t₀
        (earlier ++ [(sLast, tEnd)])).aggregate.map (reportedTime false) =
      some ((earlier ++ [(sLast, tEnd)]).map fun p => p.1.cpuTime).sum := by
  have hfull : (runCoordinator (earlier ++ [(sLast, tEnd)]).length t₀
      (earlier ++ [(sLast, tEnd)])).aggregate =
        some
          { cpuTime :=
              ((earlier ++ [(sLast, tEnd)]).map fun p => p.1.cpuTime).sum,
            realTime := tEnd - t₀,
            items :=
              ((earlier ++ [(sLast, tEnd)]).map fun p => p.1.items).sum,
            bytes :=
              ((earlier ++ [(sLast, tEnd)]).map fun p => p.1.bytes).sum } := by
    rw [runCoordinator, List.foldl_append]
    rw [show List.foldl (fun st q => st.arrive q.1 q.2)
          (CoordState.init (earlier ++ [(sLast, tEnd)]).length t₀) earlier =
        runCoordinator (earlier ++ [(sLast, tEnd)]).length t₀ earlier
      from rfl]
    rw [runCoordinator_before_barrier t₀ _ earlier (by simp)]
    simp only [List.foldl_cons, List.foldl_nil, CoordState.arrive]
    rw [if_pos (by simp)]
    rw [Option.some.injEq, Aggregate.mk.injEq]
    refine ⟨?_, rfl, ?_, ?_⟩ <;>
      simp only [List.map_cons, List.sum_cons, List.map_append,
        List.sum_append, List.map_nil, List.sum_nil, List.map_reverse,
        List.sum_reverse, List.map_map, Function.comp_def, add_zero]
    · ring
    · omega
    · omega
  refine ⟨hfull, ?_, ?_, ?_⟩
  · rw [runCoordinator_before_barrier t₀ _ pre hpre]
  · rw [hfull]
    simp [reportedTime]
  · rw [hfull]
    simp [reportedTime]

/-- A concrete worker sample used to instantiate the coordinator theorem. -/
def sampleA : ThreadSample := ⟨1, 2, 3⟩

/-- A second concrete worker sample. -/
def sampleB : ThreadSample := ⟨2, 5, 7⟩

/-- The concrete end-barrier arrival sequence of the two workers. -/
def arrivalsAB : List (ThreadSample × ℚ) := [(sampleA, 10)] ++ [(sampleB, 20)]

/-- Witness for C6: two threads, the second completing the end barrier at
wall time 20 after a start-barrier release at wall time 4. -/
theorem coordinator_aggregate_spec_witness :
    (runCoordinator arrivalsAB.length 4 arrivalsAB).aggregate =
      some
        { cpuTime := (arrivalsAB.map fun p => p.1.cpuTime).sum,
          realTime := 20 - 4,
          items := (arrivalsAB.map fun p => p.1.items).sum,
          bytes := (arrivalsAB.map fun p => p.1.bytes).sum } ∧
    (runCoordinator arrivalsAB.length 4 [(sampleA, 10)]).aggregate = none ∧
    (runCoordinator arrivalsAB.length 4 arrivalsAB).aggregate.map
      (reportedTime true) = some (20 - 4) ∧
    (runCoordinator arrivalsAB.length 4 arrivalsAB).aggregate.map
      (reportedTime false) = some (arrivalsAB.map fun p => p.1.cpuTime).sum :=
  coordinator_aggregate_spec 4 20 [(sampleA, 10)] sampleB
    [(sampleA, 10)] (by simp [arrivalsAB])

end Bench
